import Mathlib

set_option maxHeartbeats 1000000

/-!
Shallow embedding of the tic-tac-toe game engine from
`src/tictactoe/environment.rs` and of the game driver from
`src/abstract_game/mod.rs`.

Rust `u16` bit boards are embedded as `Nat`: every value reachable through
the board operations stays below `2 ^ 9`, far below `2 ^ 16`, so no
wrap-around occurs in any modelled operation.  The `u8` action type is
embedded as `Nat`, with the bound `a < 256` carried as a hypothesis where
it matters.  Rust right shifts whose amount can reach or exceed the bit
width of the shifted operand are additionally modelled with their checked
(debug-build) and masked (release-build) semantics, see
`Board.is_valid_checked` and `Board.is_valid_release`.
-/

/-- Identity of tic tac toe players (enum `AgentId` in the source). -/
inductive AgentId where
  | X
  | O
  deriving DecidableEq

/-- Representation of the tic tac toe board (struct `Board`): one occupancy
bit set per player plus the player that makes the next move. -/
structure Board where
  moves_x : Nat
  moves_o : Nat
  turn : AgentId
  deriving DecidableEq

/-- Function `Board::initial_state`: empty board, X to move. -/
def initial_state : Board :=
  { moves_x := 0, moves_o := 0, turn := AgentId.X }

/-- Method `Board::is_valid`: the action is in range and the addressed cell
is free in both occupancy sets.  The source computes `(moves >> a) & 1` on
`u16`; the `Nat` right shift used here returns the same final value as the
release-build (masked-shift) semantics for every `a`. -/
def Board.is_valid (b : Board) (a : Nat) : Bool :=
  let a_bounded := decide (a ≤ 8)
  let x_empty := !((b.moves_x >>> a) &&& 1 == 1)
  let y_empty := !((b.moves_o >>> a) &&& 1 == 1)
  a_bounded && x_empty && y_empty

/-- Method `Board::update`: if the action is valid, mark the cell for the
player to move and flip the turn, returning `true`; otherwise return
`false` with the board unchanged.  The Rust method mutates in place and
returns `bool`; the embedding returns the flag and the resulting board. -/
def Board.update (b : Board) (a : Nat) : Bool × Board :=
  if !(b.is_valid a) then
    (false, b)
  else
    let m := 1 <<< a
    if b.turn = AgentId.X then
      (true, { b with moves_x := b.moves_x ||| m, turn := AgentId.O })
    else
      (true, { b with moves_o := b.moves_o ||| m, turn := AgentId.X })

/-- Method `Board::what_if`: the board `update` would produce, computed on a
copy so the receiver is left untouched. -/
def Board.what_if (b : Board) (a : Nat) : Board :=
  (b.update a).2

/-- The table of the 8 winning-line bitmasks built inside `is_winning`
(3 rows, 3 columns, 2 diagonals). -/
def winning_masks : List Nat :=
  [0b111, 0b111000, 0b111000000,
   0b1001001, 0b10010010, 0b100100100,
   0b100010001, 0b1010100]

/-- Function `is_winning`: some winning mask is fully contained in
`position`; the source loop with early return is `List.any`. -/
def is_winning (position : Nat) : Bool :=
  winning_masks.any (fun mask => position &&& mask == mask)

/-- Function `is_filled`: all 9 board bits are set in the union of the two
occupancy sets. -/
def is_filled (board : Board) : Bool :=
  (board.moves_x ||| board.moves_o) &&& 0b111111111 == 0b111111111

/-- Method `Board::is_terminal`: some player wins or the board is full. -/
def Board.is_terminal (b : Board) : Bool :=
  if is_winning b.moves_x then true
  else if is_winning b.moves_o then true
  else if is_filled b then true
  else false

/-- Method `Board::winner`: X is checked first, then O, else nobody. -/
def Board.winner (b : Board) : Option AgentId :=
  if is_winning b.moves_x then some AgentId.X
  else if is_winning b.moves_o then some AgentId.O
  else none

/-- Struct `NextAction`: state of the lazy action enumerator; the combined
occupancy, shifted so that bit 0 corresponds to cell `current`, plus the
cursor. -/
structure NextAction where
  board_state : Nat
  current : Nat
  deriving DecidableEq

/-- Function `NextAction::new`: combined occupancy with cursor 0, or cursor
9 (already past the last cell) when the board is terminal. -/
def NextAction.new (board : Board) : NextAction :=
  { board_state := board.moves_o ||| board.moves_x,
    current := if board.is_terminal then 9 else 0 }

/-- The while loop at the head of `NextAction::next`: skip over set bits of
the remaining occupancy, advancing the cursor once per skipped bit. -/
def NextAction.skipOccupied (s : NextAction) : NextAction :=
  if s.board_state &&& 1 = 1 then
    NextAction.skipOccupied { board_state := s.board_state >>> 1, current := s.current + 1 }
  else s
termination_by s.board_state
decreasing_by
  simp only [Nat.and_one_is_mod, Nat.shiftRight_eq_div_pow, pow_one] at *
  omega

/-- Method `NextAction::next` (the `Iterator` implementation): after the
skip loop the cursor is the answer when still in range, and the state is
advanced by one further bit either way. -/
def NextAction.next (s : NextAction) : Option Nat × NextAction :=
  let s1 := s.skipOccupied
  let output := if s1.current > 8 then none else some s1.current
  (output, { board_state := s1.board_state >>> 1, current := s1.current + 1 })

/-- Method `Board::valid_actions`: the enumerator over the current board. -/
def Board.valid_actions (b : Board) : NextAction :=
  NextAction.new b

/-- Sequence yielded by an enumerator: repeated `next` until the first
`none`, as an iterator consumer observes it.  Ten calls exhaust any
`NextAction`: the cursor strictly increases with every call and any call
that starts past cursor 8 yields `none`. -/
def collectActions : Nat → NextAction → List Nat
  | 0, _ => []
  | fuel + 1, s =>
    match s.next with
    | (none, _) => []
    | (some a, s1) => a :: collectActions fuel s1

/-- The full list of actions yielded by `Board::valid_actions`. -/
def Board.valid_actions_list (b : Board) : List Nat :=
  collectActions 10 (b.valid_actions)

/-- Specification helper: the free cells of `combined` among the `fuel`
consecutive indices starting at `c`, in ascending order. -/
def validFromAux (combined : Nat) : Nat → Nat → List Nat
  | 0, _ => []
  | fuel + 1, c =>
    (if combined.testBit c then [] else [c]) ++ validFromAux combined fuel (c + 1)

/-- Number of consecutive set bits at the bottom of `bs`; equals the number
of iterations of the skip loop in `NextAction::next`. -/
def trailingOnes (bs : Nat) : Nat :=
  if bs &&& 1 = 1 then trailingOnes (bs >>> 1) + 1 else 0
termination_by bs
decreasing_by
  simp only [Nat.and_one_is_mod, Nat.shiftRight_eq_div_pow, pow_one] at *
  omega

/-- Boards reachable from `initial_state` by any finite sequence of
`update` calls (valid or not). -/
inductive Reachable : Board → Prop where
  | init : Reachable initial_state
  | step (b : Board) (a : Nat) : Reachable b → Reachable (b.update a).2

/-- Right shift of a `u16` value by a `u8` amount under the checked
(debug-build) Rust semantics: a shift amount of 16 or more is an
arithmetic overflow that panics, modelled as `none`. -/
def shr16_checked (x a : Nat) : Option Nat :=
  if a < 16 then some (x >>> a) else none

/-- Method `Board::is_valid` under checked (debug-build) shift semantics:
`none` models the shift-overflow panic raised for `a ≥ 16`; both shifts
are evaluated before the returned conjunction, as in the source. -/
def Board.is_valid_checked (b : Board) (a : Nat) : Option Bool :=
  match shr16_checked b.moves_x a, shr16_checked b.moves_o a with
  | some sx, some so =>
    some (decide (a ≤ 8) && !(sx &&& 1 == 1) && !(so &&& 1 == 1))
  | _, _ => none

/-- Method `Board::is_valid` under release-build shift semantics, where an
overflowing shift amount is masked to the 16-bit width. -/
def Board.is_valid_release (b : Board) (a : Nat) : Bool :=
  decide (a ≤ 8) && !((b.moves_x >>> (a % 16)) &&& 1 == 1)
    && !((b.moves_o >>> (a % 16)) &&& 1 == 1)

/-- Agent as seen by the driver: a seat identity plus the action submitted
when shown a board (methods `Agent::identity` and `Agent::action`). -/
structure DriverAgent where
  identity : AgentId
  policy : Board → Nat

/-- Modelled from the spec: one pass of the inner for-loop of `play_game`
in `src/abstract_game/mod.rs`.  The loop scans the agent list once; an
agent whose identity matches the current turn is asked for an action, the
environment is updated, the pair is logged whether or not the update
succeeded, and the scan breaks early when the environment has become
terminal.  The driver source is present, but the `Environment` trait it is
written against (`abstract_game/environment.rs`, with a two-argument
`update(identity, action)`) is not among the sources; following the spec
contract for `update`, that call is taken to act as `Board::update` on the
action, the identity being used only for the turn match above it. -/
def playPass : Board → List DriverAgent → Board × List (AgentId × Nat)
  | env, [] => (env, [])
  | env, agent :: rest =>
    if agent.identity = env.turn then
      let action := agent.policy env
      let env1 := (env.update action).2
      if env1.is_terminal then
        (env1, [(agent.identity, action)])
      else
        let r := playPass env1 rest
        (r.1, (agent.identity, action) :: r.2)
    else playPass env rest

/-- Modelled from the spec: the outer while-loop of `play_game`.  The Rust
loop diverges when no agent ever submits a valid action, so the embedding
bounds the number of passes by explicit fuel. -/
def play_game : Nat → Board → List DriverAgent → Board × List (AgentId × Nat)
  | 0, env, _ => (env, [])
  | fuel + 1, env, agents =>
    if env.is_terminal then (env, [])
    else
      let p := playPass env agents
      let r := play_game fuel p.1 agents
      (r.1, p.2 ++ r.2)

/-- The bit test `(x >> a) & 1 == 1` used throughout the source is exactly
`Nat.testBit`. -/
lemma bit_test_eq (x a : Nat) : ((x >>> a) &&& 1 == 1) = x.testBit a := by
  apply Bool.eq_iff_iff.mpr
  rw [Nat.testBit_to_div_mod, Nat.shiftRight_eq_div_pow, Nat.and_one_is_mod]
  simp

/-- Characterisation of `Board::is_valid`: in range and free in both sets. -/
lemma is_valid_char (b : Board) (a : Nat) :
    b.is_valid a = true ↔
      a ≤ 8 ∧ b.moves_x.testBit a = false ∧ b.moves_o.testBit a = false := by
  simp only [Board.is_valid, bit_test_eq, Bool.and_eq_true, decide_eq_true_eq,
    Bool.not_eq_true', and_assoc]

/-- An invalid action leaves the board untouched and reports `false`. -/
lemma update_invalid (b : Board) (a : Nat) (h : b.is_valid a = false) :
    b.update a = (false, b) := by
  simp [Board.update, h]

/-- A valid action with X to move marks the cell for X and passes the turn. -/
lemma update_valid_X (b : Board) (a : Nat) (hv : b.is_valid a = true)
    (ht : b.turn = AgentId.X) :
    b.update a = (true, { b with moves_x := b.moves_x ||| 1 <<< a, turn := AgentId.O }) := by
  simp [Board.update, hv, ht]

/-- A valid action with O to move marks the cell for O and passes the turn. -/
lemma update_valid_O (b : Board) (a : Nat) (hv : b.is_valid a = true)
    (ht : b.turn = AgentId.O) :
    b.update a = (true, { b with moves_o := b.moves_o ||| 1 <<< a, turn := AgentId.X }) := by
  simp [Board.update, hv, ht]

/-- C1: for every board and action, if `is_valid` holds then `update` sets
the bit for the addressed cell in the occupancy set of the player to move,
flips the turn to the other player and returns `true`; if `is_valid` does
not hold, `update` returns `false` and leaves the board unchanged. -/
theorem update_valid_invalid_spec (b : Board) (a : Nat) :
    (b.is_valid a = true → b.turn = AgentId.X →
      b.update a = (true, { b with moves_x := b.moves_x ||| 1 <<< a, turn := AgentId.O }) ∧
      (b.moves_x ||| 1 <<< a).testBit a = true) ∧
    (b.is_valid a = true → b.turn = AgentId.O →
      b.update a = (true, { b with moves_o := b.moves_o ||| 1 <<< a, turn := AgentId.X }) ∧
      (b.moves_o ||| 1 <<< a).testBit a = true) ∧
    (b.is_valid a = false → b.update a = (false, b)) := by
  refine ⟨fun hv ht => ⟨update_valid_X b a hv ht, ?_⟩,
    fun hv ht => ⟨update_valid_O b a hv ht, ?_⟩, update_invalid b a⟩ <;>
  simp [Nat.testBit_or, Nat.one_shiftLeft, Nat.testBit_two_pow_self]

/-- Witness for C1 at the first scenario move: `update(4)` on the initial
board marks cell 4 for X and hands the turn to O. -/
theorem update_valid_invalid_spec_witness :
    initial_state.update 4 =
      (true, { initial_state with moves_x := initial_state.moves_x ||| 1 <<< 4, turn := AgentId.O }) ∧
    (initial_state.moves_x ||| 1 <<< 4).testBit 4 = true :=
  (update_valid_invalid_spec initial_state 4).1 (by decide) (by decide)

/-- C2: on every reachable board, `is_valid a` holds exactly when `a` lies
in `[0, 8]` and bit `a` is clear in both occupancy sets; in particular
every out-of-range action and every occupied cell is rejected. -/
theorem is_valid_iff_unoccupied (b : Board) (h : Reachable b) (a : Nat) :
    b.is_valid a = true ↔
      a ≤ 8 ∧ b.moves_x.testBit a = false ∧ b.moves_o.testBit a = false :=
  is_valid_char b a

/-- Witness for C2 at the initial board and action 0. -/
theorem is_valid_iff_unoccupied_witness :
    initial_state.is_valid 0 = true ↔
      (0 : Nat) ≤ 8 ∧ initial_state.moves_x.testBit 0 = false ∧
        initial_state.moves_o.testBit 0 = false :=
  is_valid_iff_unoccupied initial_state Reachable.init 0

/-- C8: `what_if` is exactly the board component of `update` on a copy, and
on an invalid action it returns the receiver unchanged. -/
theorem what_if_spec (b : Board) (a : Nat) :
    b.what_if a = (b.update a).2 ∧ (b.is_valid a = false → b.what_if a = b) := by
  refine ⟨rfl, fun h => ?_⟩
  simp [Board.what_if, update_invalid b a h]

/-- Witness for C8 at the initial board and the invalid action 9. -/
theorem what_if_spec_witness :
    initial_state.what_if 9 = (initial_state.update 9).2 ∧
      initial_state.what_if 9 = initial_state :=
  ⟨(what_if_spec initial_state 9).1, (what_if_spec initial_state 9).2 (by decide)⟩

/-- C4: `is_terminal` holds exactly when `winner` is present or the board
is full, and fullness is exactly coverage of bits 0 through 8 by the union
of the occupancy sets. -/
theorem is_terminal_iff_winner_or_filled (b : Board) :
    b.is_terminal = (b.winner.isSome || is_filled b) ∧
    (is_filled b = true ↔
      ∀ i : Nat, i ≤ 8 → (b.moves_x ||| b.moves_o).testBit i = true) := by
  constructor
  · cases hx : is_winning b.moves_x <;> cases ho : is_winning b.moves_o <;>
      simp [Board.is_terminal, Board.winner, hx, ho]
  · have h9 : (0b111111111 : Nat) = 2 ^ 9 - 1 := by norm_num
    constructor
    · intro h i hi
      have h' : (b.moves_x ||| b.moves_o) &&& 0b111111111 = 0b111111111 := by
        simpa [is_filled] using h
      have h2 := congrArg (fun n => n.testBit i) h'
      simp only [Nat.testBit_and, h9, Nat.testBit_two_pow_sub_one] at h2
      simpa [show i < 9 by omega] using h2
    · intro h
      have h' : (b.moves_x ||| b.moves_o) &&& 0b111111111 = 0b111111111 := by
        apply Nat.eq_of_testBit_eq
        intro i
        rw [Nat.testBit_and, h9, Nat.testBit_two_pow_sub_one]
        by_cases hi : i < 9
        · simp [hi, h i (by omega)]
        · simp [hi]
      simpa [is_filled] using h'

/-- C5 (amended): `winner` is X exactly when X completed a line, O exactly
when O completed a line and X did not (X is checked first), and absent
exactly when neither completed a line; completing a line is containment of
one of the 8 winning masks. -/
theorem winner_priority_spec (b : Board) :
    (b.winner = some AgentId.X ↔ is_winning b.moves_x = true) ∧
    (b.winner = some AgentId.O ↔
      is_winning b.moves_o = true ∧ is_winning b.moves_x = false) ∧
    (b.winner = none ↔
      is_winning b.moves_x = false ∧ is_winning b.moves_o = false) ∧
    (∀ p : Nat, is_winning p = true ↔ ∃ mask ∈ winning_masks, p &&& mask = mask) := by
  refine ⟨?_, ?_, ?_, fun p => ?_⟩
  · cases hx : is_winning b.moves_x <;> cases ho : is_winning b.moves_o <;>
      simp [Board.winner, hx, ho]
  · cases hx : is_winning b.moves_x <;> cases ho : is_winning b.moves_o <;>
      simp [Board.winner, hx, ho]
  · cases hx : is_winning b.moves_x <;> cases ho : is_winning b.moves_o <;>
      simp [Board.winner, hx, ho]
  · simp [is_winning, List.any_eq_true]

/-- C5 counterexample: on the reachable board where X holds the top row and
O holds the middle row (play 0, 3, 1, 4, 2, 5), O has completed a winning
line, yet `winner` is not O — it is X, who is checked first. -/
theorem winner_iff_counterexample :
    is_winning (Board.mk 7 56 AgentId.X).moves_o = true ∧
    (Board.mk 7 56 AgentId.X).winner ≠ some AgentId.O ∧
    Reachable (Board.mk 7 56 AgentId.X) := by
  refine ⟨by decide, by decide, ?_⟩
  have h0 : Reachable initial_state := Reachable.init
  have h1 := Reachable.step initial_state 0 h0
  rw [show (initial_state.update 0).2 = Board.mk 1 0 AgentId.O from by decide] at h1
  have h2 := Reachable.step (Board.mk 1 0 AgentId.O) 3 h1
  rw [show ((Board.mk 1 0 AgentId.O).update 3).2 = Board.mk 1 8 AgentId.X from by decide] at h2
  have h3 := Reachable.step (Board.mk 1 8 AgentId.X) 1 h2
  rw [show ((Board.mk 1 8 AgentId.X).update 1).2 = Board.mk 3 8 AgentId.O from by decide] at h3
  have h4 := Reachable.step (Board.mk 3 8 AgentId.O) 4 h3
  rw [show ((Board.mk 3 8 AgentId.O).update 4).2 = Board.mk 3 24 AgentId.X from by decide] at h4
  have h5 := Reachable.step (Board.mk 3 24 AgentId.X) 2 h4
  rw [show ((Board.mk 3 24 AgentId.X).update 2).2 = Board.mk 7 24 AgentId.O from by decide] at h5
  have h6 := Reachable.step (Board.mk 7 24 AgentId.O) 5 h5
  rw [show ((Board.mk 7 24 AgentId.O).update 5).2 = Board.mk 7 56 AgentId.X from by decide] at h6
  exact h6

/-- Bit-set invariant maintained by `update` along any reachable board:
occupied positions stay in range and the two sets stay disjoint. -/
lemma reachable_mask_inv (b : Board) (h : Reachable b) :
    (∀ i : Nat, b.moves_x.testBit i = true → i ≤ 8) ∧
    (∀ i : Nat, b.moves_o.testBit i = true → i ≤ 8) ∧
    (∀ i : Nat, ¬(b.moves_x.testBit i = true ∧ b.moves_o.testBit i = true)) := by
  induction h with
  | init => simp [initial_state]
  | step b a hb ih =>
    obtain ⟨ihx, iho, ihd⟩ := ih
    by_cases hv : b.is_valid a = true
    · obtain ⟨ha, hxa, hoa⟩ := (is_valid_char b a).1 hv
      cases ht : b.turn with
      | X =>
        rw [update_valid_X b a hv ht]
        refine ⟨fun i hi => ?_, iho, fun i hi => ?_⟩
        · rw [Nat.one_shiftLeft, Nat.testBit_or] at hi
          rcases Bool.or_eq_true_iff.mp hi with h1 | h1
          · exact ihx i h1
          · rw [Nat.testBit_two_pow] at h1
            have : a = i := by simpa using h1
            omega
        · obtain ⟨h1, h2⟩ := hi
          rw [Nat.one_shiftLeft, Nat.testBit_or] at h1
          rcases Bool.or_eq_true_iff.mp h1 with h3 | h3
          · exact ihd i ⟨h3, h2⟩
          · rw [Nat.testBit_two_pow] at h3
            have hia : a = i := by simpa using h3
            rw [← hia] at h2
            rw [hoa] at h2
            exact absurd h2 (by simp)
      | O =>
        rw [update_valid_O b a hv ht]
        refine ⟨ihx, fun i hi => ?_, fun i hi => ?_⟩
        · rw [Nat.one_shiftLeft, Nat.testBit_or] at hi
          rcases Bool.or_eq_true_iff.mp hi with h1 | h1
          · exact iho i h1
          · rw [Nat.testBit_two_pow] at h1
            have : a = i := by simpa using h1
            omega
        · obtain ⟨h1, h2⟩ := hi
          rw [Nat.one_shiftLeft, Nat.testBit_or] at h2
          rcases Bool.or_eq_true_iff.mp h2 with h3 | h3
          · exact ihd i ⟨h1, h3⟩
          · rw [Nat.testBit_two_pow] at h3
            have hia : a = i := by simpa using h3
            rw [← hia] at h1
            rw [hxa] at h1
            exact absurd h1 (by simp)
    · have hv' : b.is_valid a = false := by
        cases hvv : b.is_valid a
        · rfl
        · exact absurd hvv hv
      rw [update_invalid b a hv']
      exact ⟨ihx, iho, ihd⟩

/-- C3: along every board reachable from `initial_state` by `update`
calls, the two occupancy sets are disjoint, every set bit sits at a
position in `[0, 8]`, and any `update` flips the turn exactly when it
returns `true` and leaves it unchanged when it returns `false`. -/
theorem reachable_invariants (b : Board) (h : Reachable b) :
    (∀ i : Nat, ¬(b.moves_x.testBit i = true ∧ b.moves_o.testBit i = true)) ∧
    (∀ i : Nat, b.moves_x.testBit i = true → i ≤ 8) ∧
    (∀ i : Nat, b.moves_o.testBit i = true → i ≤ 8) ∧
    (∀ a : Nat,
      ((b.update a).1 = true →
        (b.update a).2.turn = (if b.turn = AgentId.X then AgentId.O else AgentId.X)) ∧
      ((b.update a).1 = false → (b.update a).2.turn = b.turn)) := by
  obtain ⟨hx, ho, hd⟩ := reachable_mask_inv b h
  refine ⟨hd, hx, ho, fun a => ⟨?_, ?_⟩⟩
  · intro h1
    by_cases hv : b.is_valid a = true
    · cases ht : b.turn with
      | X => rw [update_valid_X b a hv ht]; simp [ht]
      | O => rw [update_valid_O b a hv ht]; simp [ht]
    · have hv' : b.is_valid a = false := by
        cases hvv : b.is_valid a
        · rfl
        · exact absurd hvv hv
      rw [update_invalid b a hv'] at h1
      exact absurd h1 (by simp)
  · intro h1
    by_cases hv : b.is_valid a = true
    · cases ht : b.turn with
      | X => rw [update_valid_X b a hv ht] at h1; exact absurd h1 (by simp)
      | O => rw [update_valid_O b a hv ht] at h1; exact absurd h1 (by simp)
    · have hv' : b.is_valid a = false := by
        cases hvv : b.is_valid a
        · rfl
        · exact absurd hvv hv
      rw [update_invalid b a hv']

/-- Witness for C3 at the initial board. -/
theorem reachable_invariants_witness :
    (∀ i : Nat, ¬(initial_state.moves_x.testBit i = true ∧
      initial_state.moves_o.testBit i = true)) ∧
    (∀ i : Nat, initial_state.moves_x.testBit i = true → i ≤ 8) ∧
    (∀ i : Nat, initial_state.moves_o.testBit i = true → i ≤ 8) ∧
    (∀ a : Nat,
      ((initial_state.update a).1 = true →
        (initial_state.update a).2.turn =
          (if initial_state.turn = AgentId.X then AgentId.O else AgentId.X)) ∧
      ((initial_state.update a).1 = false →
        (initial_state.update a).2.turn = initial_state.turn)) :=
  reachable_invariants initial_state Reachable.init

/-- C10: for every action strictly above 8 (any out-of-range `u8` value),
the checked (debug-build) semantics of `is_valid` returns `false` only for
amounts 9 through 15 and overflows — panics — from 16 upward, while the
`Nat` embedding and the release (masked-shift) semantics return `false`
throughout; the claim that the shifts are well-defined over the whole `u8`
range therefore fails exactly on the overflowing amounts. -/
theorem is_valid_checked_out_of_range (b : Board) (a : Nat) (h8 : 8 < a)
    (h256 : a < 256) :
    b.is_valid_checked a = (if a < 16 then some false else none) ∧
    b.is_valid a = false ∧ b.is_valid_release a = false := by
  have hb : decide (a ≤ 8) = false := by
    simp only [decide_eq_false_iff_not]
    omega
  refine ⟨?_, ?_, ?_⟩
  · by_cases h16 : a < 16
    · simp [Board.is_valid_checked, shr16_checked, h16, hb]
    · simp [Board.is_valid_checked, shr16_checked, h16]
  · cases hv : b.is_valid a
    · rfl
    · obtain ⟨ha, -, -⟩ := (is_valid_char b a).1 hv
      omega
  · simp [Board.is_valid_release, hb]

/-- Witness for C10 at the failing input: on the initial board, action 16
hits the overflowing shift (checked semantics yields no value). -/
theorem is_valid_checked_out_of_range_witness :
    initial_state.is_valid_checked 16 = (if (16 : Nat) < 16 then some false else none) ∧
    initial_state.is_valid 16 = false ∧ initial_state.is_valid_release 16 = false :=
  is_valid_checked_out_of_range initial_state 16 (by decide) (by decide)

/-- The skip loop lands exactly past the run of trailing set bits. -/
lemma skipOccupied_eq (bs : Nat) : ∀ c : Nat,
    NextAction.skipOccupied ⟨bs, c⟩ =
      ⟨bs >>> trailingOnes bs, c + trailingOnes bs⟩ := by
  induction bs using Nat.strong_induction_on with
  | _ bs ih =>
    intro c
    have hlt : bs &&& 1 = 1 → bs >>> 1 < bs := by
      intro h
      simp only [Nat.and_one_is_mod] at h
      simp only [Nat.shiftRight_eq_div_pow, pow_one]
      omega
    by_cases h : bs &&& 1 = 1
    · have htr : trailingOnes bs = trailingOnes (bs >>> 1) + 1 := by
        rw [trailingOnes, if_pos h]
      rw [NextAction.skipOccupied, if_pos h]
      rw [ih (bs >>> 1) (hlt h) (c + 1)]
      rw [htr]
      have e1 : bs >>> (trailingOnes (bs >>> 1) + 1) =
          (bs >>> 1) >>> trailingOnes (bs >>> 1) := by
        rw [Nat.add_comm, Nat.shiftRight_add]
      rw [e1]
      have e2 : c + (trailingOnes (bs >>> 1) + 1) = c + 1 + trailingOnes (bs >>> 1) := by
        omega
      rw [e2]
    · have htr0 : trailingOnes bs = 0 := by
        rw [trailingOnes, if_neg h]
      rw [NextAction.skipOccupied, if_neg h, htr0]
      simp

/-- Bits below the trailing-ones count are set. -/
lemma testBit_lt_trailingOnes (bs : Nat) : ∀ i : Nat, i < trailingOnes bs →
    bs.testBit i = true := by
  induction bs using Nat.strong_induction_on with
  | _ bs ih =>
    intro i hi
    by_cases h : bs &&& 1 = 1
    · have hmod : bs % 2 = 1 := by simpa [Nat.and_one_is_mod] using h
      have hlt : bs >>> 1 < bs := by
        simp only [Nat.shiftRight_eq_div_pow, pow_one]
        omega
      rw [trailingOnes, if_pos h] at hi
      cases i with
      | zero => simp [hmod]
      | succ j =>
        rw [Nat.testBit_succ]
        have e : bs / 2 = bs >>> 1 := by
          simp [Nat.shiftRight_eq_div_pow]
        rw [e]
        exact ih (bs >>> 1) hlt j (by omega)
    · rw [trailingOnes, if_neg h] at hi
      omega

/-- The bit at the trailing-ones count is clear. -/
lemma testBit_at_trailingOnes (bs : Nat) :
    bs.testBit (trailingOnes bs) = false := by
  induction bs using Nat.strong_induction_on with
  | _ bs ih =>
    by_cases h : bs &&& 1 = 1
    · have hlt : bs >>> 1 < bs := by
        have hmod : bs % 2 = 1 := by simpa [Nat.and_one_is_mod] using h
        simp only [Nat.shiftRight_eq_div_pow, pow_one]
        omega
      rw [trailingOnes, if_pos h]
      rw [Nat.testBit_succ]
      have e : bs / 2 = bs >>> 1 := by
        simp [Nat.shiftRight_eq_div_pow]
      rw [e]
      exact ih (bs >>> 1) hlt
    · have hmod : bs % 2 = 0 := by
        have : bs % 2 ≠ 1 := by simpa [Nat.and_one_is_mod] using h
        omega
      rw [trailingOnes, if_neg h]
      simp [hmod]

/-- One `next` call: skip to the first clear bit, yield it when in range,
and advance the state one further bit. -/
lemma next_eq (bs c : Nat) :
    NextAction.next ⟨bs, c⟩ =
      (if c + trailingOnes bs > 8 then none else some (c + trailingOnes bs),
       ⟨bs >>> (trailingOnes bs + 1), c + trailingOnes bs + 1⟩) := by
  unfold NextAction.next
  rw [skipOccupied_eq]
  have e : bs >>> (trailingOnes bs + 1) = (bs >>> trailingOnes bs) >>> 1 := by
    rw [Nat.shiftRight_add]
  rw [e]

/-- A cursor already past cell 8 yields nothing. -/
lemma collect_nil_of_gt (fuel bs c : Nat) (h : 8 < c) :
    collectActions fuel ⟨bs, c⟩ = [] := by
  cases fuel with
  | zero => rfl
  | succ n =>
    have hgt : c + trailingOnes bs > 8 := by omega
    simp only [collectActions, next_eq, if_pos hgt]

/-- When all `fuel` cells in view from `c` are occupied, the specification
list is empty. -/
lemma validFromAux_eq_nil (combined : Nat) : ∀ fuel c : Nat,
    (∀ i : Nat, c ≤ i → i < c + fuel → combined.testBit i = true) →
    validFromAux combined fuel c = [] := by
  intro fuel
  induction fuel with
  | zero => intro c _; rfl
  | succ n ih =>
    intro c hall
    show (if combined.testBit c then [] else [c]) ++ validFromAux combined n (c + 1) = []
    rw [if_pos (hall c le_rfl (by omega))]
    rw [List.nil_append]
    exact ih (c + 1) (fun i h1 h2 => hall i (by omega) (by omega))

/-- Unrolling the specification list up to the first clear bit `d`. -/
lemma validFromAux_eq_cons (combined : Nat) : ∀ fuel c d : Nat,
    c ≤ d → d < c + fuel →
    (∀ i : Nat, c ≤ i → i < d → combined.testBit i = true) →
    combined.testBit d = false →
    validFromAux combined fuel c =
      d :: validFromAux combined (fuel - (d + 1 - c)) (d + 1) := by
  intro fuel
  induction fuel with
  | zero =>
    intro c d h1 h2 _ _
    omega
  | succ n ih =>
    intro c d hcd hdf hset hclear
    show (if combined.testBit c then [] else [c]) ++ validFromAux combined n (c + 1) = _
    by_cases hc : c = d
    · subst hc
      rw [if_neg (by simp [hclear])]
      have e : n + 1 - (c + 1 - c) = n := by omega
      rw [e, List.singleton_append]
    · have hlt : c < d := by omega
      rw [if_pos (hset c le_rfl hlt), List.nil_append]
      rw [ih (c + 1) d (by omega) (by omega) (fun i h1 h2 => hset i (by omega) h2) hclear]
      have e : n - (d + 1 - (c + 1)) = n + 1 - (d + 1 - c) := by omega
      rw [e]

/-- Membership in the specification list. -/
lemma mem_validFromAux (combined : Nat) : ∀ fuel c i : Nat,
    i ∈ validFromAux combined fuel c ↔
      (c ≤ i ∧ i < c + fuel ∧ combined.testBit i = false) := by
  intro fuel
  induction fuel with
  | zero =>
    intro c i
    show i ∈ ([] : List Nat) ↔ _
    simp
    omega
  | succ n ih =>
    intro c i
    show i ∈ (if combined.testBit c then [] else [c]) ++ validFromAux combined n (c + 1) ↔ _
    rw [List.mem_append, ih (c + 1) i]
    by_cases hb : combined.testBit c
    · rw [if_pos hb]
      simp only [List.not_mem_nil, false_or]
      constructor
      · rintro ⟨h1, h2, h3⟩
        exact ⟨by omega, by omega, h3⟩
      · rintro ⟨h1, h2, h3⟩
        have hne : i ≠ c := by
          intro e
          rw [e, hb] at h3
          exact absurd h3 (by simp)
        exact ⟨by omega, by omega, h3⟩
    · rw [if_neg hb]
      simp only [List.mem_singleton]
      rw [Bool.not_eq_true] at hb
      constructor
      · rintro (h1 | ⟨h1, h2, h3⟩)
        · subst h1
          exact ⟨le_rfl, by omega, hb⟩
        · exact ⟨by omega, by omega, h3⟩
      · rintro ⟨h1, h2, h3⟩
        by_cases hic : i = c
        · exact Or.inl hic
        · exact Or.inr ⟨by omega, by omega, h3⟩

/-- The specification list is strictly ascending. -/
lemma pairwise_validFromAux (combined : Nat) : ∀ fuel c : Nat,
    (validFromAux combined fuel c).Pairwise (· < ·) := by
  intro fuel
  induction fuel with
  | zero =>
    intro c
    show (([] : List Nat)).Pairwise (· < ·)
    simp
  | succ n ih =>
    intro c
    show ((if combined.testBit c then [] else [c]) ++
      validFromAux combined n (c + 1)).Pairwise (· < ·)
    by_cases hb : combined.testBit c
    · rw [if_pos hb, List.nil_append]
      exact ih (c + 1)
    · rw [if_neg hb, List.singleton_append, List.pairwise_cons]
      refine ⟨fun y hy => ?_, ih (c + 1)⟩
      have := (mem_validFromAux combined n (c + 1) y).1 hy
      omega

/-- The enumerator started at cursor `c` (with the occupancy already
shifted by `c`) yields exactly the specification list from `c`, given
enough fuel for the cells that remain. -/
lemma collect_eq_validFromAux (combined : Nat) : ∀ fuel c : Nat, 9 < c + fuel →
    collectActions fuel ⟨combined >>> c, c⟩ = validFromAux combined (9 - c) c := by
  intro fuel
  induction fuel with
  | zero =>
    intro c h
    have e : 9 - c = 0 := by omega
    rw [e]
    rfl
  | succ n ih =>
    intro c h
    have hbit : ∀ i : Nat, c ≤ i → i < c + trailingOnes (combined >>> c) →
        combined.testBit i = true := by
      intro i h1 h2
      have hb := testBit_lt_trailingOnes (combined >>> c) (i - c) (by omega)
      rw [Nat.testBit_shiftRight] at hb
      rwa [show c + (i - c) = i from by omega] at hb
    by_cases hd : 8 < c + trailingOnes (combined >>> c)
    · simp only [collectActions, next_eq, if_pos hd]
      symm
      apply validFromAux_eq_nil
      intro i h1 h2
      exact hbit i h1 (by omega)
    · simp only [collectActions, next_eq, if_neg hd]
      have hshift : (combined >>> c) >>> (trailingOnes (combined >>> c) + 1) =
          combined >>> (c + trailingOnes (combined >>> c) + 1) := by
        rw [← Nat.shiftRight_add, Nat.add_assoc]
      rw [hshift]
      rw [ih (c + trailingOnes (combined >>> c) + 1) (by omega)]
      have hclear : combined.testBit (c + trailingOnes (combined >>> c)) = false := by
        have hb := testBit_at_trailingOnes (combined >>> c)
        rwa [Nat.testBit_shiftRight] at hb
      rw [validFromAux_eq_cons combined (9 - c) c (c + trailingOnes (combined >>> c))
        (by omega) (by omega) (fun i h1 h2 => hbit i h1 h2) hclear]
      have e : 9 - c - (c + trailingOnes (combined >>> c) + 1 - c) =
          9 - (c + trailingOnes (combined >>> c) + 1) := by omega
      rw [e]

/-- On a terminal board the enumerator yields no actions at all. -/
lemma valid_actions_list_of_terminal (b : Board) (h : b.is_terminal = true) :
    b.valid_actions_list = [] := by
  unfold Board.valid_actions_list Board.valid_actions NextAction.new
  rw [h]
  simp only [if_pos]
  exact collect_nil_of_gt 10 (b.moves_o ||| b.moves_x) 9 (by omega)

/-- On a non-terminal board the enumerator yields the specification list of
all free cells in `[0, 8]`. -/
lemma valid_actions_list_of_nonterminal (b : Board) (h : b.is_terminal = false) :
    b.valid_actions_list = validFromAux (b.moves_o ||| b.moves_x) 9 0 := by
  unfold Board.valid_actions_list Board.valid_actions NextAction.new
  rw [h]
  simp only [Bool.false_eq_true, if_false]
  have hcoll := collect_eq_validFromAux (b.moves_o ||| b.moves_x) 10 0 (by omega)
  rw [Nat.shiftRight_zero] at hcoll
  simpa using hcoll

/-- C6 (amended): on every non-terminal board the sequence produced by
`valid_actions` yields exactly the positions on which `is_valid` holds, in
strictly ascending order and without duplicates; on terminal boards the
enumerator instead yields nothing even though free cells may remain. -/
theorem valid_actions_exact_nonterminal (b : Board) (h : b.is_terminal = false) :
    (∀ a : Nat, a ∈ b.valid_actions_list ↔ b.is_valid a = true) ∧
    b.valid_actions_list.Pairwise (· < ·) ∧ b.valid_actions_list.Nodup := by
  rw [valid_actions_list_of_nonterminal b h]
  refine ⟨fun a => ?_, pairwise_validFromAux _ 9 0,
    (pairwise_validFromAux _ 9 0).imp Nat.ne_of_lt⟩
  rw [mem_validFromAux, is_valid_char]
  constructor
  · rintro ⟨h1, h2, h3⟩
    rw [Nat.testBit_or] at h3
    rcases Bool.or_eq_false_iff.mp h3 with ⟨ho, hx⟩
    exact ⟨by omega, hx, ho⟩
  · rintro ⟨h1, h2, h3⟩
    refine ⟨by omega, by omega, ?_⟩
    rw [Nat.testBit_or, h2, h3]
    rfl

/-- Witness for C6 at the initial (non-terminal) board. -/
theorem valid_actions_exact_nonterminal_witness :
    (∀ a : Nat, a ∈ initial_state.valid_actions_list ↔
      initial_state.is_valid a = true) ∧
    initial_state.valid_actions_list.Pairwise (· < ·) ∧
    initial_state.valid_actions_list.Nodup :=
  valid_actions_exact_nonterminal initial_state (by decide)

/-- C6 counterexample: after the reachable play 0, 3, 1, 4, 2 the board is
terminal (X holds the top row) while cell 5 is still free, so `is_valid 5`
holds and yet the enumerator yields nothing — the unconditional claim that
`valid_actions` agrees with `is_valid` on every board is false. -/
theorem valid_actions_terminal_gap :
    (Board.mk 7 24 AgentId.O).is_terminal = true ∧
    (Board.mk 7 24 AgentId.O).is_valid 5 = true ∧
    5 ∉ (Board.mk 7 24 AgentId.O).valid_actions_list := by
  refine ⟨by decide, by decide, ?_⟩
  rw [valid_actions_list_of_terminal (Board.mk 7 24 AgentId.O) (by decide)]
  simp

/-- C7: on every terminal board the enumerator yields no actions, its
cursor being initialised to 9, one past the last valid cell index. -/
theorem valid_actions_terminal_empty (b : Board) (h : b.is_terminal = true) :
    b.valid_actions_list = [] ∧ (NextAction.new b).current = 9 := by
  refine ⟨valid_actions_list_of_terminal b h, ?_⟩
  simp [NextAction.new, h]

/-- Witness for C7 at the terminal board reached by the play 0, 3, 1, 4, 2. -/
theorem valid_actions_terminal_empty_witness :
    (Board.mk 7 24 AgentId.O).valid_actions_list = [] ∧
    (NextAction.new (Board.mk 7 24 AgentId.O)).current = 9 :=
  valid_actions_terminal_empty (Board.mk 7 24 AgentId.O) (by decide)

/-- C9: when, mid-pass on a non-terminal board, the agent whose identity
matches the current turn submits an invalid action, `update` reports
`false` and leaves the board (and hence the turn) unchanged, the pair is
still appended to the log, and the pass continues with the remaining
agents of the list — the same agent is not polled again within this pass. -/
theorem play_game_invalid_action (env : Board) (ag : DriverAgent)
    (rest : List DriverAgent) (hid : ag.identity = env.turn)
    (hinv : env.is_valid (ag.policy env) = false)
    (hterm : env.is_terminal = false) :
    env.update (ag.policy env) = (false, env) ∧
    playPass env (ag :: rest) =
      ((playPass env rest).1, (ag.identity, ag.policy env) :: (playPass env rest).2) := by
  have hu := update_invalid env (ag.policy env) hinv
  refine ⟨hu, ?_⟩
  simp only [playPass, hid, if_pos, hu, hterm]
  simp [hterm]

/-- Witness for C9: on the initial board, the X agent submitting the
invalid action 9 is logged, the board stays put, and the pass moves on. -/
theorem play_game_invalid_action_witness :
    initial_state.update 9 = (false, initial_state) ∧
    playPass initial_state [DriverAgent.mk AgentId.X (fun _ => 9)] =
      ((playPass initial_state []).1,
        (AgentId.X, 9) :: (playPass initial_state []).2) :=
  play_game_invalid_action initial_state (DriverAgent.mk AgentId.X (fun _ => 9)) []
    rfl (by decide) (by decide)

/-- Witness for C4 at the full drawn board with X on cells 0, 1, 5, 6, 8
and O on cells 2, 3, 4, 7. -/
theorem is_terminal_iff_winner_or_filled_witness :
    (Board.mk 355 156 AgentId.X).is_terminal =
      ((Board.mk 355 156 AgentId.X).winner.isSome ||
        is_filled (Board.mk 355 156 AgentId.X)) ∧
    (is_filled (Board.mk 355 156 AgentId.X) = true ↔
      ∀ i : Nat, i ≤ 8 →
        ((Board.mk 355 156 AgentId.X).moves_x |||
          (Board.mk 355 156 AgentId.X).moves_o).testBit i = true) :=
  is_terminal_iff_winner_or_filled (Board.mk 355 156 AgentId.X)

/-- Witness for C5 at the double-line board used by the counterexample. -/
theorem winner_priority_spec_witness :
    ((Board.mk 7 56 AgentId.X).winner = some AgentId.X ↔
      is_winning (Board.mk 7 56 AgentId.X).moves_x = true) ∧
    ((Board.mk 7 56 AgentId.X).winner = some AgentId.O ↔
      is_winning (Board.mk 7 56 AgentId.X).moves_o = true ∧
        is_winning (Board.mk 7 56 AgentId.X).moves_x = false) ∧
    ((Board.mk 7 56 AgentId.X).winner = none ↔
      is_winning (Board.mk 7 56 AgentId.X).moves_x = false ∧
        is_winning (Board.mk 7 56 AgentId.X).moves_o = false) ∧
    (∀ p : Nat, is_winning p = true ↔ ∃ mask ∈ winning_masks, p &&& mask = mask) :=
  winner_priority_spec (Board.mk 7 56 AgentId.X)
